/-
Verification of the Kuang2008 post-processing library.

The development is a shallow embedding of the numerical core of the
repository:

* `post/lib/Diagnostics.py` — `modal_growth_rate`, `phase_speed`,
  `convert_state`;
* `post/lib/Reconstruct.py` — `reconstruct`;
* the mode-selection snippet shared by `post/lib/Plot.py`
  (`plot_diagnostics`) and `analysis/qt_no_rad_comp.py`
  (`np.argmax` over the mode axis followed by `np.take_along_axis`);
* the wavenumber-selection snippet of `post/kuang_post/make_all.py` and
  `analysis/Phase_comp.py` (`np.argmin` of the absolute distance to a
  target wavenumber).

Modelling conventions:

* numpy arrays of a fixed shape become curried functions out of `Fin`
  types, one `Fin` per axis, in the same axis order as the code.
* floating-point values are modelled exactly: complex64 entries as
  values of a field `K` (instantiated at `ℂ` in every theorem) and
  float64 entries as values of a linearly ordered field `R`
  (instantiated at `ℝ`); precision narrowing such as
  `astype(np.complex64)` is not modelled.  The scalar fields are kept
  as parameters of the definitions, with the real/imaginary part maps
  `re im : K → R` passed explicitly, so that every definition stays
  executable; the theorems pin them to `ℂ`, `ℝ`, `Complex.re`,
  `Complex.im`.
* `np.linalg.eig` is an oracle: the eigensolver is passed in as an
  explicit argument returning the list of eigenvalues of a matrix, and
  theorems assume of it exactly what LAPACK guarantees (one eigenvalue
  per dimension; the multiset of returned values is the multiset of
  roots of the characteristic polynomial).
* a Python-level failure (an exception aborting the computation, such
  as the broadcast `ValueError` raised by `growth[:, j] = σ` when `σ`
  has a length other than 6 or 1 — numpy assignment broadcasts a
  length-1 vector into every row of the length-6 column — or an
  out-of-bounds `IndexError`) is modelled by an `Option` result being
  `none`.
* Python / numpy integer indexing of an axis of length `n` accepts any
  integer in `[-n, n)`, negative values counting from the end; this is
  `npIndex` below.
* all embedded code is pure: the numpy expressions involved allocate
  fresh arrays and never write into their inputs, which the embedding
  reflects by being state-free.
-/

import Mathlib

namespace Kuang2008

/-- The type of an eigensolver oracle standing for `np.linalg.eig`
(only the eigenvalue part is used by the code): for an `n × n` matrix
over the complex scalar field `K` it returns a list of eigenvalues. -/
def EigSolver (K : Type) : Type :=
  (n : ℕ) → Matrix (Fin n) (Fin n) K → List K

/-- An eigensolver is correct on a matrix `M` when it returns the
eigenvalues of `M` with algebraic multiplicity: the multiset of
returned values is the root multiset of the characteristic polynomial. -/
def EigCorrectOn {K : Type} [CommRing K] [IsDomain K] (eig : EigSolver K) {n : ℕ}
    (M : Matrix (Fin n) (Fin n) K) : Prop :=
  (↑(eig n M) : Multiset K) = M.charpoly.roots

/-- Embedding of `optrs[:, :, j].T` — the transposed `j`-th operator slice used by
both diagnostics (`Diagnostics.py`, the `np.linalg.eig( optrs[ :, :, j ].T )`
calls). -/
def opSliceT {K : Type} {Nv Nk : ℕ} (optrs : Fin Nv → Fin Nv → Fin Nk → K) (j : Fin Nk) :
    Matrix (Fin Nv) (Fin Nv) K :=
  Matrix.of fun a b => optrs b a j

/-- Row index of the numpy broadcast assignment `col[:, j] = σ` of a
length-`L` vector `σ` into a length-6 column: the assignment succeeds
iff `L = 6` (entrywise copy, row `i` reads `σ[i]`) or `L = 1` (the
single entry is broadcast into every row, so row `i` reads `σ[0]`);
any other length raises a broadcast `ValueError`. -/
def broadcastIdx {K : Type} (l : List K) (h : l.length = 6 ∨ l.length = 1) (i : Fin 6) : K :=
  if h6 : l.length = 6 then l.get ⟨i.val, by omega⟩
  else l.get ⟨0, by omega⟩

/-- Embedding of `Diagnostics.modal_growth_rate`: allocates a `(6, Nk)` result
(`Nv` is hardcoded to `6` in the function body, independent of the
operator array's actual dimensions), and for each wavenumber `j`
stores `σ = np.real(eigvals)` of the transposed slice into column `j`.
The numpy assignment `growth[ :, j ] = σ` broadcasts: it accepts a
`σ` of length 6 (entrywise) or of length 1 (the single value fills
the whole column), and raises a broadcast `ValueError` for any other
length, which the embedding renders as `none`.  The wavenumber array
only contributes its length. -/
def modal_growth_rate {K R : Type} (eig : EigSolver K) (re : K → R) {Nv Nk : ℕ}
    (optrs : Fin Nv → Fin Nv → Fin Nk → K) (k : Fin Nk → R) :
    Option (Fin 6 → Fin Nk → R) :=
  let _ := k
  if h : ∀ j : Fin Nk, (eig Nv (opSliceT optrs j)).length = 6 ∨
      (eig Nv (opSliceT optrs j)).length = 1 then
    some fun i j => re (broadcastIdx (eig Nv (opSliceT optrs j)) (h j) i)
  else none

/-- Embedding of `Diagnostics.phase_speed`: same eigendecomposition per wavenumber,
entry `(i, j)` is `-np.imag(eigvals)[i] / k[j] * (4320000.0 / 86400.0)`,
with the same broadcast rule as `modal_growth_rate` for the assignment
`speed[ :, j ] = c` (a length-1 `c` fills the column; lengths other
than 6 or 1 raise a `ValueError`).  As in the source there is no check
on `k[j]`: a zero wavenumber is fed to the division as-is (numpy
produces `inf`/`nan` with a warning; the field model uses the
`x / 0 = 0` convention — in neither case is the computation aborted). -/
def phase_speed {K R : Type} [Field R] (eig : EigSolver K) (im : K → R) {Nv Nk : ℕ}
    (optrs : Fin Nv → Fin Nv → Fin Nk → K) (k : Fin Nk → R) :
    Option (Fin 6 → Fin Nk → R) :=
  if h : ∀ j : Fin Nk, (eig Nv (opSliceT optrs j)).length = 6 ∨
      (eig Nv (opSliceT optrs j)).length = 1 then
    some fun i j =>
      -im (broadcastIdx (eig Nv (opSliceT optrs j)) (h j) i) / k j * (4320000 / 86400)
  else none

/-- Embedding of `Diagnostics.convert_state`.  The leading (variable) axis of the
result is modelled as a `List` of `(Nk, Nt)` layers because its length
is data-dependent: the code builds
`np.concatenate([ state[:4], J1, J2 ], axis=0)` with
`L = state[-1]`, `U = L + 0.7*(state[-2] - 1.5*state[2])`,
`J1 = L + U`, `J2 = L - U`.  Reading `state[2]` (and `state[-1]`,
`state[-2]`) raises `IndexError` when the state has fewer than 3
variables — the only failure the function can produce; there is no
shape validation of any other kind.  The trailing
`astype(np.complex64)` only narrows precision and is not modelled. -/
def convert_state {K : Type} [Field K] {Nv Nk Nt : ℕ}
    (state : Fin Nv → Fin Nk → Fin Nt → K) :
    Option (List (Fin Nk → Fin Nt → K)) :=
  if h : 3 ≤ Nv then
    let L : Fin Nk → Fin Nt → K := state ⟨Nv - 1, by omega⟩
    let U : Fin Nk → Fin Nt → K := fun kk tt =>
      L kk tt + (7 / 10) * (state ⟨Nv - 2, by omega⟩ kk tt - (3 / 2) * state ⟨2, by omega⟩ kk tt)
    let J1 : Fin Nk → Fin Nt → K := fun kk tt => L kk tt + U kk tt
    let J2 : Fin Nk → Fin Nt → K := fun kk tt => L kk tt - U kk tt
    some ((((List.finRange Nv).take 4).map fun i => state i) ++ [J1, J2])
  else none

/-- Embedding of `Reconstruct.reconstruct` for an in-range wavenumber index:
`FourierBasis = invmat[:, kidx][None, :, None]`,
`state_kidx = state[:, kidx, :][:, None, :]`,
`state_pc = FourierBasis * state_kidx` (broadcast product), and
`prof = einsum("vz,vxt->vzxt", basis, state_pc)` — `v` appears in the
output subscripts, so the einsum is a pointwise product over `v`, not
a contraction. -/
def reconstruct {K : Type} [Field K] {Nv Nk Nt Nz Nx : ℕ} (kidx : Fin Nk)
    (state : Fin Nv → Fin Nk → Fin Nt → K)
    (basis : Fin Nv → Fin Nz → K)
    (invmat : Fin Nx → Fin Nk → K) :
    Fin Nv → Fin Nz → Fin Nx → Fin Nt → K :=
  let FourierBasis : Fin Nx → K := fun x => invmat x kidx
  let state_kidx : Fin Nv → Fin Nt → K := fun v t => state v kidx t
  let state_pc : Fin Nv → Fin Nx → Fin Nt → K := fun v x t => FourierBasis x * state_kidx v t
  fun v z x t => basis v z * state_pc v x t

/-- Python / numpy integer indexing of an axis of length `n`:
`i ∈ [0, n)` is taken as-is, `i ∈ [-n, 0)` counts from the end
(`i + n`), anything else raises `IndexError` (`none`). -/
def npIndex (n : ℕ) (i : ℤ) : Option (Fin n) :=
  if h : 0 ≤ i ∧ i < (n : ℤ) then some ⟨i.toNat, by omega⟩
  else if h2 : -(n : ℤ) ≤ i ∧ i < 0 then some ⟨(i + n).toNat, by omega⟩
  else none

/-- Embedding of `Reconstruct.reconstruct` as called with a Python integer
wavenumber index: both `invmat[:, kidx]` and `state[:, kidx, :]` index
an axis of length `Nk` with the same `kidx`, so the call succeeds
exactly when `npIndex Nk kidx` does, and otherwise raises `IndexError`
before any result array is built. -/
def reconstructZ {K : Type} [Field K] {Nv Nk Nt Nz Nx : ℕ} (kidx : ℤ)
    (state : Fin Nv → Fin Nk → Fin Nt → K)
    (basis : Fin Nv → Fin Nz → K)
    (invmat : Fin Nx → Fin Nk → K) :
    Option (Fin Nv → Fin Nz → Fin Nx → Fin Nt → K) :=
  (npIndex Nk kidx).map fun kf => reconstruct kf state basis invmat

/-- Embedding of `np.argmax` over a nonempty axis: the lowest index attaining the
maximum ("In case of multiple occurrences of the maximum values, the
indices corresponding to the first occurrence are returned").
`Fin.find` returns the first index satisfying the predicate. -/
def np_argmax {α : Type} [LinearOrder α] {n : ℕ} (g : Fin (n + 1) → α) : Fin (n + 1) :=
  (Fin.find fun i => ∀ i2, g i2 ≤ g i).getD ⟨0, Nat.succ_pos n⟩

/-- Embedding of `np.argmin` over a nonempty axis: the lowest index attaining the
minimum (first occurrence). -/
def np_argmin {α : Type} [LinearOrder α] {n : ℕ} (g : Fin (n + 1) → α) : Fin (n + 1) :=
  (Fin.find fun i => ∀ i2, g i ≤ g i2).getD ⟨0, Nat.succ_pos n⟩

/-- Embedding of `max_idx = np.argmax( growth_rate, axis=0 )` from
`Plot.plot_diagnostics` / `qt_no_rad_comp.main`: per wavenumber column,
the first mode index attaining the maximal growth rate. -/
def max_idx {R : Type} [LinearOrder R] {n Nk : ℕ}
    (growth : Fin (n + 1) → Fin Nk → R) (j : Fin Nk) : Fin (n + 1) :=
  np_argmax fun i => growth i j

/-- Embedding of `np.take_along_axis( arr, idx[None, :], axis=0 )[0]`: gather the
entry of `arr` at row `idx j` of each column `j`. -/
def take_along_axis0 {R : Type} {n Nk : ℕ} (arr : Fin (n + 1) → Fin Nk → R)
    (idx : Fin Nk → Fin (n + 1)) (j : Fin Nk) : R :=
  arr (idx j) j

/-- Embedding of `max_σ` of `Plot.plot_diagnostics`: per-wavenumber maximal growth
rate, gathered at `max_idx`. -/
def max_growth {R : Type} [LinearOrder R] {n Nk : ℕ}
    (growth : Fin (n + 1) → Fin Nk → R) (j : Fin Nk) : R :=
  take_along_axis0 growth (max_idx growth) j

/-- Embedding of `max_c` of `Plot.plot_diagnostics`: the phase-speed entry gathered
at the same `(mode, wavenumber)` position as the maximal growth rate. -/
def max_speed {R : Type} [LinearOrder R] {n Nk : ℕ}
    (growth speed : Fin (n + 1) → Fin Nk → R) (j : Fin Nk) : R :=
  take_along_axis0 speed (max_idx growth) j

/-- Embedding of `kidx = np.argmin( np.abs( target_k - wnum ) )` from
`make_all.main` (and, with the operands swapped inside `np.abs`,
`Phase_comp.main`): the first index of the wavenumber axis nearest to
the target wavenumber. -/
def wavenumber_select {R : Type} [LinearOrderedField R] {n : ℕ}
    (wnum : Fin (n + 1) → R) (target_k : R) : Fin (n + 1) :=
  np_argmin fun i => |target_k - wnum i|

/-- An eigensolver that returns the diagonal of the matrix.  On diagonal
matrices (in particular on every `1 × 1` matrix) this is exactly what
`np.linalg.eig` computes, so it serves as a faithful concrete oracle
for the diagonal operator arrays used in concrete instances below. -/
def eig_diag : EigSolver ℂ :=
  fun n M => (List.finRange n).map fun i => M i i

/-- A concrete 6-variable state `(Nv, Nk, Nt) = (6, 1, 1)`,
`state[v] = v`. -/
def stateSix : Fin 6 → Fin 1 → Fin 1 → ℂ :=
  fun v _ _ => (v.val : ℂ)

/-- A concrete 5-variable state `(Nv, Nk, Nt) = (5, 1, 1)`,
`state[v] = v`. -/
def stateFive : Fin 5 → Fin 1 → Fin 1 → ℂ :=
  fun v _ _ => (v.val : ℂ)

/-- A concrete operator array of shape `(1, 1, 1)` whose single slice
is the `1 × 1` matrix `[[5]]`. -/
def optrsOne : Fin 1 → Fin 1 → Fin 1 → ℂ :=
  fun _ _ _ => 5

/-- A concrete operator array of shape `(6, 6, 1)` whose single slice
is the real diagonal matrix `diag(0, 1, 2, 3, 4, 5)`. -/
def optrsSix : Fin 6 → Fin 6 → Fin 1 → ℂ :=
  fun v w _ => if v = w then (v.val : ℂ) else 0

/-- A one-entry wavenumber array `[1.0]`. -/
def kOne : Fin 1 → ℝ :=
  fun _ => 1

/-- A one-entry wavenumber array `[0.0]` (the zero-wavenumber edge
case). -/
def kZero : Fin 1 → ℝ :=
  fun _ => 0

/-- A concrete `(1, 2, 1)` state for the integer-indexed reconstruction
instances: `state[0, kk, 0] = kk`. -/
def stateTwoK : Fin 1 → Fin 2 → Fin 1 → ℂ :=
  fun _ kk _ => (kk.val : ℂ)

/-- A concrete all-ones `(1, 1)` vertical basis. -/
def basisOne : Fin 1 → Fin 1 → ℂ :=
  fun _ _ => 1

/-- A concrete all-ones `(1, 2)` inverse-transform matrix. -/
def invmatTwoK : Fin 1 → Fin 2 → ℂ :=
  fun _ _ => 1

/-- The `2 × 2` growth-rate example `[[1, 5], [3, 2]]` (two modes, two
wavenumbers). -/
def growthEx : Fin 2 → Fin 2 → ℝ :=
  ![![1, 5], ![3, 2]]

/-- A `2 × 2` phase-speed array `[[10, 20], [30, 40]]` paired with
`growthEx`. -/
def speedEx : Fin 2 → Fin 2 → ℝ :=
  ![![10, 20], ![30, 40]]

/-- A two-entry wavenumber axis `[1, 3]`. -/
def wnumEx : Fin 2 → ℝ :=
  ![1, 3]

/-- The characteristic matrix of a diagonal matrix is diagonal. -/
theorem charmatrix_diagonal {K : Type} [CommRing K] {n : ℕ} (d : Fin n → K) :
    Matrix.charmatrix (Matrix.diagonal d) =
      Matrix.diagonal fun i => (Polynomial.X : Polynomial K) - Polynomial.C (d i) := by
  ext i j
  by_cases h : i = j
  · subst h
    simp
  · simp [Matrix.charmatrix_apply_ne _ _ _ h, Matrix.diagonal_apply_ne _ h]

/-- The characteristic polynomial of a diagonal matrix is the product
of the linear factors of its diagonal entries. -/
theorem charpoly_diagonal {K : Type} [CommRing K] {n : ℕ} (d : Fin n → K) :
    (Matrix.diagonal d).charpoly =
      ∏ i : Fin n, ((Polynomial.X : Polynomial K) - Polynomial.C (d i)) := by
  rw [Matrix.charpoly, charmatrix_diagonal, Matrix.det_diagonal]

/-- The eigenvalues, with algebraic multiplicity, of a diagonal matrix
are exactly its diagonal entries. -/
theorem roots_charpoly_diagonal {K : Type} [Field K] [IsDomain K] {n : ℕ} (d : Fin n → K) :
    (Matrix.diagonal d).charpoly.roots = Multiset.map d Finset.univ.val := by
  have hmaps : (Finset.univ.val.map fun i => (Polynomial.X : Polynomial K) - Polynomial.C (d i))
      = (Multiset.map d Finset.univ.val).map
          fun a => (Polynomial.X : Polynomial K) - Polynomial.C a := by
    rw [Multiset.map_map]
    rfl
  rw [charpoly_diagonal, Finset.prod_eq_multiset_prod, hmaps,
    Polynomial.roots_multiset_prod_X_sub_C]

/-- `np_argmax` attains the maximum, and is below every other index
attaining it (first-occurrence semantics). -/
theorem np_argmax_spec {α : Type} [LinearOrder α] {n : ℕ} (g : Fin (n + 1) → α) :
    (∀ i, g i ≤ g (np_argmax g)) ∧ ∀ i, (∀ i2, g i2 ≤ g i) → np_argmax g ≤ i := by
  obtain ⟨m, hm⟩ := Finite.exists_max g
  have hex : ∃ i : Fin (n + 1), ∀ i2, g i2 ≤ g i := ⟨m, hm⟩
  obtain ⟨r, hr⟩ := Option.isSome_iff_exists.mp (Fin.isSome_find_iff.mpr hex)
  have hp := Fin.find_eq_some_iff.mp hr
  have hrr : np_argmax g = r := by rw [np_argmax, hr]; rfl
  rw [hrr]
  exact ⟨hp.1, hp.2⟩

/-- `np_argmin` attains the minimum, and is below every other index
attaining it (first-occurrence semantics). -/
theorem np_argmin_spec {α : Type} [LinearOrder α] {n : ℕ} (g : Fin (n + 1) → α) :
    (∀ i, g (np_argmin g) ≤ g i) ∧ ∀ i, (∀ i2, g i ≤ g i2) → np_argmin g ≤ i := by
  obtain ⟨m, hm⟩ := Finite.exists_min g
  have hex : ∃ i : Fin (n + 1), ∀ i2, g i ≤ g i2 := ⟨m, hm⟩
  obtain ⟨r, hr⟩ := Option.isSome_iff_exists.mp (Fin.isSome_find_iff.mpr hex)
  have hp := Fin.find_eq_some_iff.mp hr
  have hrr : np_argmin g = r := by rw [np_argmin, hr]; rfl
  rw [hrr]
  exact ⟨hp.1, hp.2⟩

/-- Computation rule for `np_argmax`: if `i` attains the maximum and
every earlier index is strictly below it, `np_argmax` returns `i`. -/
theorem np_argmax_eq {α : Type} [LinearOrder α] {n : ℕ} (g : Fin (n + 1) → α) (i : Fin (n + 1))
    (hmax : ∀ i2, g i2 ≤ g i) (hlt : ∀ i2, i2 < i → g i2 < g i) :
    np_argmax g = i := by
  have hfind : (Fin.find fun i2 => ∀ i3, g i3 ≤ g i2) = some i := by
    rw [Fin.find_eq_some_iff]
    refine ⟨hmax, fun j hj => ?_⟩
    by_contra hc
    push_neg at hc
    exact absurd (hj i) (not_le.mpr (hlt j hc))
  rw [np_argmax, hfind]
  rfl

/-- Taking the first four indices of `List.finRange Nv` when `Nv ≥ 4`. -/
theorem finRange_take_four {Nv : ℕ} (h : 4 ≤ Nv) :
    (List.finRange Nv).take 4 =
      [⟨0, by omega⟩, ⟨1, by omega⟩, ⟨2, by omega⟩, ⟨3, by omega⟩] := by
  apply List.ext_getElem
  · simp
    omega
  · intro i h1 h2
    have h4 : i < 4 := by simpa using h2
    simp only [List.getElem_take, List.getElem_finRange]
    interval_cases i <;> rfl

/-- C1 counterexample: the claim says `convert_state` on a state with
`Nv = 6` variables returns `Nv + 2 = 8` leading-axis entries; the code
returns 6 (it concatenates `state[:4]` — not the whole state — with
`J1` and `J2`). -/
theorem convert_state_C1_counterexample :
    (convert_state stateSix).map List.length = some 6 ∧ (6 : ℕ) ≠ 6 + 2 := by
  refine ⟨?_, by decide⟩
  rw [convert_state, dif_pos (by omega : 3 ≤ 6), finRange_take_four (by omega)]
  rfl

/-- C1 (amended): for every state with `Nv ≥ 6` variables,
`convert_state` returns a complex-valued state with exactly 6
leading-axis entries and the same `Nk`/`Nt` extents: the first four
input variables, then `J1 = low + upper` and `J2 = low - upper`, with
`low = state[last]` and
`upper = low + 0.7*(state[second-to-last] - 1.5*state[index 2])`.
The input variables at indices `4 .. Nv-1` are dropped, so the output
has 6 variables, not `Nv + 2`. -/
theorem convert_state_returns_six_vars {Nv Nk Nt : ℕ} (hNv : 6 ≤ Nv)
    (state : Fin Nv → Fin Nk → Fin Nt → ℂ) :
    convert_state state =
      some [state ⟨0, by omega⟩, state ⟨1, by omega⟩, state ⟨2, by omega⟩, state ⟨3, by omega⟩,
        fun kk tt =>
          state ⟨Nv - 1, by omega⟩ kk tt +
            (state ⟨Nv - 1, by omega⟩ kk tt +
              (7 / 10) * (state ⟨Nv - 2, by omega⟩ kk tt - (3 / 2) * state ⟨2, by omega⟩ kk tt)),
        fun kk tt =>
          state ⟨Nv - 1, by omega⟩ kk tt -
            (state ⟨Nv - 1, by omega⟩ kk tt +
              (7 / 10) * (state ⟨Nv - 2, by omega⟩ kk tt - (3 / 2) * state ⟨2, by omega⟩ kk tt))] := by
  rw [convert_state, dif_pos (by omega : 3 ≤ Nv), finRange_take_four (by omega)]
  rfl

/-- Concrete instance of `convert_state_returns_six_vars` at the
6-variable state `stateSix`. -/
theorem convert_state_returns_six_vars_witness :
    convert_state stateSix =
      some [stateSix ⟨0, by omega⟩, stateSix ⟨1, by omega⟩, stateSix ⟨2, by omega⟩,
        stateSix ⟨3, by omega⟩,
        fun kk tt =>
          stateSix ⟨6 - 1, by omega⟩ kk tt +
            (stateSix ⟨6 - 1, by omega⟩ kk tt +
              (7 / 10) * (stateSix ⟨6 - 2, by omega⟩ kk tt - (3 / 2) * stateSix ⟨2, by omega⟩ kk tt)),
        fun kk tt =>
          stateSix ⟨6 - 1, by omega⟩ kk tt -
            (stateSix ⟨6 - 1, by omega⟩ kk tt +
              (7 / 10) * (stateSix ⟨6 - 2, by omega⟩ kk tt - (3 / 2) * stateSix ⟨2, by omega⟩ kk tt))] :=
  convert_state_returns_six_vars (by omega) stateSix

/-- C8 counterexample: a 5-variable state — fewer than the 6 the claim
says must be rejected with a `ShapeError` — is accepted without any
error. -/
theorem convert_state_C8_counterexample :
    (convert_state stateFive).isSome = true ∧ (5 : ℕ) < 6 := by
  refine ⟨?_, by decide⟩
  rw [convert_state, dif_pos (by omega : 3 ≤ 5)]
  rfl

/-- C8 (amended): `convert_state` performs no shape validation and
raises no `ShapeError`: it succeeds for every input with at least 3
variables (including the 3-, 4- and 5-variable states the claim says
must fail), and its only failure mode is the `IndexError` from reading
`state[2]`/`state[-2]` when fewer than 3 variables are present. -/
theorem convert_state_no_shape_check {Nv Nk Nt : ℕ}
    (state : Fin Nv → Fin Nk → Fin Nt → ℂ) :
    (convert_state state).isSome ↔ 3 ≤ Nv := by
  by_cases h : 3 ≤ Nv
  · rw [convert_state, dif_pos h]
    simp [h]
  · rw [convert_state, dif_neg h]
    simp [h]

/-- C5: the reconstructed field is the outer product
`basis[v, z] * invmat[x, kidx] * state[v, kidx, t]`, and with an
all-ones basis, an all-ones inverse-transform column and the time
series `[[1, 2, 3]]` every `(z, x)` location reproduces the series
exactly. -/
theorem reconstruct_spec :
    (∀ (Nv Nk Nt Nz Nx : ℕ) (kidx : Fin Nk)
        (state : Fin Nv → Fin Nk → Fin Nt → ℂ)
        (basis : Fin Nv → Fin Nz → ℂ) (invmat : Fin Nx → Fin Nk → ℂ)
        (v : Fin Nv) (z : Fin Nz) (x : Fin Nx) (t : Fin Nt),
      reconstruct kidx state basis invmat v z x t
        = basis v z * invmat x kidx * state v kidx t) ∧
    ∀ (Nz Nx Nk : ℕ) (kidx : Fin Nk) (z : Fin Nz) (x : Fin Nx) (t : Fin 3),
      reconstruct kidx
          (fun (_ : Fin 1) (_ : Fin Nk) (t2 : Fin 3) => ((t2.val : ℂ) + 1))
          (fun _ _ => 1) (fun _ _ => 1) ⟨0, by omega⟩ z x t
        = (t.val : ℂ) + 1 := by
  constructor
  · intro Nv Nk Nt Nz Nx kidx state basis invmat v z x t
    rw [reconstruct]
    ring
  · intro Nz Nx Nk kidx z x t
    rw [reconstruct]
    ring

/-- C7 counterexample: the claim says every index outside `[0, Nk)`
makes `reconstruct` fail; numpy wraps negative indices, so `kidx = -1`
(outside `[0, 2)`) succeeds. -/
theorem reconstructZ_C7_counterexample :
    (reconstructZ (-1) stateTwoK basisOne invmatTwoK).isSome = true ∧ ¬(0 ≤ (-1 : ℤ)) := by
  refine ⟨?_, by decide⟩
  rw [reconstructZ, npIndex]
  norm_num

/-- C7 (amended): the integer-indexed `reconstruct` fails (with the
`IndexError` of the two `kidx` reads, before any output exists)
exactly when `kidx` is outside `[-Nk, Nk)`; a negative `kidx` in
`[-Nk, 0)` is interpreted as `kidx + Nk` (Python index wrapping).  The
function is pure — the embedding, like the numpy expressions it
models, only reads its input arrays. -/
theorem reconstructZ_range {Nv Nk Nt Nz Nx : ℕ} (kidx : ℤ)
    (state : Fin Nv → Fin Nk → Fin Nt → ℂ)
    (basis : Fin Nv → Fin Nz → ℂ) (invmat : Fin Nx → Fin Nk → ℂ) :
    (reconstructZ kidx state basis invmat = none ↔
      kidx < -(Nk : ℤ) ∨ (Nk : ℤ) ≤ kidx) ∧
    ∀ h : -(Nk : ℤ) ≤ kidx ∧ kidx < 0,
      reconstructZ kidx state basis invmat =
        some (reconstruct ⟨(kidx + Nk).toNat, by omega⟩ state basis invmat) := by
  constructor
  · rw [reconstructZ, npIndex]
    by_cases h1 : 0 ≤ kidx ∧ kidx < (Nk : ℤ)
    · rw [dif_pos h1]
      simp
      omega
    · by_cases h2 : -(Nk : ℤ) ≤ kidx ∧ kidx < 0
      · rw [dif_neg h1, dif_pos h2]
        simp
        omega
      · rw [dif_neg h1, dif_neg h2]
        simp
        omega
  · intro h
    have h1 : ¬(0 ≤ kidx ∧ kidx < (Nk : ℤ)) := by omega
    rw [reconstructZ, npIndex, dif_neg h1, dif_pos h]
    rfl

/-- Concrete instance of `reconstructZ_range`: `kidx = -1` on a
two-wavenumber axis wraps to index `1`. -/
theorem reconstructZ_range_witness :
    reconstructZ (-1) stateTwoK basisOne invmatTwoK =
      some (reconstruct ⟨((-1 : ℤ) + (2 : ℕ)).toNat, by omega⟩ stateTwoK basisOne invmatTwoK) :=
  (reconstructZ_range (-1) stateTwoK basisOne invmatTwoK).2 (by constructor <;> decide)

/-- Indexing a list of length `n` at every `i : Fin n` and mapping `f`
yields, as a multiset, the image of the list under `f`. -/
theorem multiset_map_get {α β : Type} (l : List α) {n : ℕ} (h : l.length = n) (f : α → β) :
    Multiset.map (fun i : Fin n => f (l.get ⟨i.val, by rw [h]; exact i.isLt⟩))
        Finset.univ.val
      = ↑(l.map f) := by
  have huniv : (Finset.univ.val : Multiset (Fin n)) = ↑(List.finRange n) := by
    rw [Fin.univ_def]
  rw [huniv, Multiset.map_coe]
  apply congrArg fun t : List β => (↑t : Multiset β)
  apply List.ext_getElem
  · simp [h]
  · intro i h1 h2
    simp [List.getElem_finRange, List.getElem_map]

/-- Reading a broadcast column when the assigned vector has the full 6
entries: row `i` is entry `i`. -/
theorem broadcastIdx_of_six {K : Type} (l : List K) (h6 : l.length = 6)
    (h : l.length = 6 ∨ l.length = 1) (i : Fin 6) :
    broadcastIdx l h i = l.get ⟨i.val, by omega⟩ := by
  rw [broadcastIdx, dif_pos h6]

/-- Reading a broadcast column when the assigned vector has a single
entry: every row is that entry. -/
theorem broadcastIdx_of_one {K : Type} (l : List K) (h1 : l.length = 1)
    (h : l.length = 6 ∨ l.length = 1) (i : Fin 6) :
    broadcastIdx l h i = l.get ⟨0, by omega⟩ := by
  rw [broadcastIdx, dif_neg (by omega)]

/-- C2 counterexample: the claim quantifies over every operator array
of shape `(Nv, Nv, Nk)`, but the code hardcodes 6 modes: on the
`(1, 1, 1)` operator array `[[[5]]]`, with an eigensolver that is
provably correct on the (transposed) slice, numpy broadcasts the
single eigenvalue into all six rows and `modal_growth_rate` returns a
`(6, 1)` array with every entry `5` — not the `(1, 1)` array of real
parts the claim requires (`6 ≠ 1`). -/
theorem modal_growth_rate_C2_counterexample :
    (∃ g : Fin 6 → Fin 1 → ℝ,
      modal_growth_rate eig_diag Complex.re optrsOne kOne = some g ∧ ∀ i, g i 0 = 5) ∧
      EigCorrectOn eig_diag (opSliceT optrsOne 0) ∧ (6 : ℕ) ≠ 1 := by
  refine ⟨?_, ?_, by decide⟩
  · have hor : ∀ j : Fin 1, (eig_diag 1 (opSliceT optrsOne j)).length = 6 ∨
        (eig_diag 1 (opSliceT optrsOne j)).length = 1 := by
      intro j
      right
      simp [eig_diag]
    refine ⟨_, by rw [modal_growth_rate]; exact dif_pos hor, ?_⟩
    intro i
    show (broadcastIdx (eig_diag 1 (opSliceT optrsOne 0)) (hor 0) i).re = 5
    rw [broadcastIdx_of_one _ (by simp [eig_diag])]
    simp [eig_diag, opSliceT, optrsOne]
  · have hdiag : opSliceT optrsOne 0 = Matrix.diagonal fun _ : Fin 1 => (5 : ℂ) := by
      ext a b
      fin_cases a
      fin_cases b
      simp [opSliceT, optrsOne]
    rw [EigCorrectOn, hdiag, roots_charpoly_diagonal]
    rfl

/-- C2 (amended to the hardcoded mode count): for every operator array
of shape `(6, 6, Nk)` and nonempty wavenumber array, provided the
eigensolver returns its 6 eigenvalues per slice, `modal_growth_rate`
returns the `(6, Nk)` array whose column `j` holds the real parts of
the eigenvalues of the transpose of the `j`-th slice; and whenever a
(transposed) slice is a real diagonal matrix and the eigensolver is
correct on it, that column's growth rates are exactly the diagonal
entries (as a multiset — the eigensolver's output order is not
specified). -/
theorem modal_growth_rate_spec {Nk : ℕ} (hNk : 0 < Nk) (eig : EigSolver ℂ)
    (optrs : Fin 6 → Fin 6 → Fin Nk → ℂ) (k : Fin Nk → ℝ)
    (hlen : ∀ j, (eig 6 (opSliceT optrs j)).length = 6) :
    ∃ g : Fin 6 → Fin Nk → ℝ,
      modal_growth_rate eig Complex.re optrs k = some g ∧
      (∀ i j, g i j =
        ((eig 6 (opSliceT optrs j)).get ⟨i.val, by rw [hlen j]; exact i.isLt⟩).re) ∧
      ∀ (j : Fin Nk) (d : Fin 6 → ℝ),
        EigCorrectOn eig (opSliceT optrs j) →
        opSliceT optrs j = Matrix.diagonal (fun i => (d i : ℂ)) →
        Multiset.map (fun i => g i j) Finset.univ.val = Multiset.map d Finset.univ.val := by
  have hor : ∀ j2 : Fin Nk, (eig 6 (opSliceT optrs j2)).length = 6 ∨
      (eig 6 (opSliceT optrs j2)).length = 1 := fun j2 => Or.inl (hlen j2)
  refine ⟨_, by rw [modal_growth_rate]; exact dif_pos hor,
    fun i j => by rw [broadcastIdx_of_six _ (hlen j)], ?_⟩
  intro j d hcorr hdiag
  simp only [broadcastIdx_of_six _ (hlen j)]
  have h1 : Multiset.map
      (fun i : Fin 6 =>
        ((eig 6 (opSliceT optrs j)).get ⟨i.val, by rw [hlen j]; exact i.isLt⟩).re)
      Finset.univ.val = ↑((eig 6 (opSliceT optrs j)).map Complex.re) :=
    multiset_map_get _ (hlen j) Complex.re
  have h2 : (↑(eig 6 (opSliceT optrs j)) : Multiset ℂ)
      = Multiset.map (fun i => (d i : ℂ)) Finset.univ.val := by
    rw [EigCorrectOn] at hcorr
    rw [hcorr, hdiag, roots_charpoly_diagonal]
  rw [h1, ← Multiset.map_coe, h2, Multiset.map_map]
  simp [Function.comp, Complex.ofReal_re]

/-- Concrete instance of `modal_growth_rate_spec` at the diagonal
operator array `optrsSix`. -/
theorem modal_growth_rate_spec_witness :
    (modal_growth_rate eig_diag Complex.re optrsSix kOne).isSome = true := by
  obtain ⟨g, hg, -, -⟩ :=
    modal_growth_rate_spec (by norm_num) eig_diag optrsSix kOne fun j => by simp [eig_diag]
  rw [hg]
  rfl

/-- C10 counterexample: a slice yielding a number of eigenvalues
different from 6 need not abort the computation: at `Nv = 1` each
slice yields a single eigenvalue, which numpy broadcasts into the
length-6 column, and both diagnostics return arrays. -/
theorem diagnostics_hardcode_six_counterexample :
    (modal_growth_rate eig_diag Complex.re optrsOne kOne).isSome = true ∧
      (phase_speed eig_diag Complex.im optrsOne kOne).isSome = true ∧
      (eig_diag 1 (opSliceT optrsOne 0)).length ≠ 6 := by
  have hor : ∀ j : Fin 1, (eig_diag 1 (opSliceT optrsOne j)).length = 6 ∨
      (eig_diag 1 (opSliceT optrsOne j)).length = 1 := by
    intro j
    right
    simp [eig_diag]
  refine ⟨?_, ?_, by simp [eig_diag]⟩
  · rw [modal_growth_rate, dif_pos hor]
    rfl
  · rw [phase_speed, dif_pos hor]
    rfl

/-- C10 (amended): `modal_growth_rate` and `phase_speed` hardcode 6
modes: for any operator array whatsoever, each returns a value —
necessarily of shape `(6, Nk)`, the type of the `some` payload —
exactly when every slice's eigenvalue count broadcasts into a
length-6 column, that is, equals 6 (stored entrywise) or 1 (the
single value fills all six rows); any other count aborts the
computation. -/
theorem diagnostics_hardcode_six (eig : EigSolver ℂ) {Nv Nk : ℕ}
    (optrs : Fin Nv → Fin Nv → Fin Nk → ℂ) (k : Fin Nk → ℝ) :
    ((∃ g : Fin 6 → Fin Nk → ℝ, modal_growth_rate eig Complex.re optrs k = some g) ↔
      ∀ j, (eig Nv (opSliceT optrs j)).length = 6 ∨
        (eig Nv (opSliceT optrs j)).length = 1) ∧
    ((∃ c : Fin 6 → Fin Nk → ℝ, phase_speed eig Complex.im optrs k = some c) ↔
      ∀ j, (eig Nv (opSliceT optrs j)).length = 6 ∨
        (eig Nv (opSliceT optrs j)).length = 1) := by
  by_cases h : ∀ j : Fin Nk, (eig Nv (opSliceT optrs j)).length = 6 ∨
      (eig Nv (opSliceT optrs j)).length = 1
  · have hg : modal_growth_rate eig Complex.re optrs k =
        some fun i j => (broadcastIdx (eig Nv (opSliceT optrs j)) (h j) i).re := by
      rw [modal_growth_rate]
      exact dif_pos h
    have hc : phase_speed eig Complex.im optrs k =
        some fun i j =>
          -(broadcastIdx (eig Nv (opSliceT optrs j)) (h j) i).im
            / k j * (4320000 / 86400) := by
      rw [phase_speed]
      exact dif_pos h
    exact ⟨⟨fun _ => h, fun _ => ⟨_, hg⟩⟩, ⟨fun _ => h, fun _ => ⟨_, hc⟩⟩⟩
  · constructor
    · refine ⟨fun ⟨g, hg⟩ => absurd hg ?_, fun hc => absurd hc h⟩
      rw [modal_growth_rate, dif_neg h]
      exact Option.noConfusion
    · refine ⟨fun ⟨c, hc⟩ => absurd hc ?_, fun hc => absurd hc h⟩
      rw [phase_speed, dif_neg h]
      exact Option.noConfusion

/-- Concrete instance of `diagnostics_hardcode_six`: the diagonal
`(6, 6, 1)` operator array yields a growth-rate array. -/
theorem diagnostics_hardcode_six_witness :
    ∃ g : Fin 6 → Fin 1 → ℝ, modal_growth_rate eig_diag Complex.re optrsSix kOne = some g :=
  (diagnostics_hardcode_six eig_diag optrsSix kOne).1.mpr fun j => Or.inl (by simp [eig_diag])

/-- C3: each entry of the array returned by `phase_speed` is
`-imag(eigval) / k[j] * (4320000 / 86400)` for the corresponding
eigenvalue of the transposed slice; consequently, with the operator
held fixed, doubling every (nonzero) wavenumber halves the phase
speed. -/
theorem phase_speed_spec (eig : EigSolver ℂ) {Nv Nk : ℕ}
    (optrs : Fin Nv → Fin Nv → Fin Nk → ℂ) (k : Fin Nk → ℝ)
    (hlen : ∀ j, (eig Nv (opSliceT optrs j)).length = 6) :
    ∃ c c2 : Fin 6 → Fin Nk → ℝ,
      phase_speed eig Complex.im optrs k = some c ∧
      phase_speed eig Complex.im optrs (fun j => 2 * k j) = some c2 ∧
      (∀ i j, c i j =
        -((eig Nv (opSliceT optrs j)).get ⟨i.val, by rw [hlen j]; exact i.isLt⟩).im
          / k j * (4320000 / 86400)) ∧
      ∀ i j, k j ≠ 0 → c2 i j = c i j / 2 := by
  have hor : ∀ j2 : Fin Nk, (eig Nv (opSliceT optrs j2)).length = 6 ∨
      (eig Nv (opSliceT optrs j2)).length = 1 := fun j2 => Or.inl (hlen j2)
  refine ⟨_, _, by rw [phase_speed]; exact dif_pos hor,
    by rw [phase_speed]; exact dif_pos hor,
    fun i j => by rw [broadcastIdx_of_six _ (hlen j)], fun i j hkj => ?_⟩
  show -(broadcastIdx (eig Nv (opSliceT optrs j)) (hor j) i).im / (2 * k j) * (4320000 / 86400)
      = -(broadcastIdx (eig Nv (opSliceT optrs j)) (hor j) i).im / k j * (4320000 / 86400) / 2
  rw [mul_comm (2 : ℝ) (k j), ← div_div]
  ring

/-- Concrete instance of `phase_speed_spec` at the diagonal operator
array `optrsSix` and unit wavenumber. -/
theorem phase_speed_spec_witness :
    (phase_speed eig_diag Complex.im optrsSix kOne).isSome = true := by
  obtain ⟨c, c2, hc, -, -, -⟩ :=
    phase_speed_spec eig_diag optrsSix kOne fun j => by simp [eig_diag]
  rw [hc]
  rfl

/-- C4 counterexample: on a wavenumber array containing `0` the code
does not fail and does produce an output array (numpy merely emits
`inf`/`nan` entries with a runtime warning; no `DomainError` exists
anywhere in the code). -/
theorem phase_speed_C4_counterexample :
    (phase_speed eig_diag Complex.im optrsSix kZero).isSome = true ∧ kZero 0 = 0 := by
  refine ⟨?_, rfl⟩
  rw [phase_speed, dif_pos]
  · rfl
  · intro j
    exact Or.inl (by simp [eig_diag])

/-- C4 (amended): `phase_speed` performs no zero-wavenumber check:
whenever the eigensolver yields 6 eigenvalues per slice it returns an
output array even if some wavenumber entry is zero — the division by
zero is untrapped (IEEE `inf`/`nan` in the code, the `x / 0 = 0`
convention in the field model), and no `DomainError` is raised. -/
theorem phase_speed_zero_wavenumber (eig : EigSolver ℂ) {Nv Nk : ℕ}
    (optrs : Fin Nv → Fin Nv → Fin Nk → ℂ) (k : Fin Nk → ℝ) (j0 : Fin Nk)
    (h0 : k j0 = 0)
    (hlen : ∀ j, (eig Nv (opSliceT optrs j)).length = 6) :
    (phase_speed eig Complex.im optrs k).isSome = true := by
  rw [phase_speed, dif_pos fun j => Or.inl (hlen j)]
  rfl

/-- Concrete instance of `phase_speed_zero_wavenumber` at the zero
wavenumber array. -/
theorem phase_speed_zero_wavenumber_witness :
    (phase_speed eig_diag Complex.im optrsSix kZero).isSome = true :=
  phase_speed_zero_wavenumber eig_diag optrsSix kZero 0 rfl fun j => by simp [eig_diag]

/-- C6: mode selection picks, per wavenumber column, the lowest mode
index attaining the maximal growth rate, and gathers the phase-speed
entry at the same `(mode, wavenumber)` position; on the growth-rate
array `[[1, 5], [3, 2]]` the selected indices are `[1, 0]` and the
maximal growth rates `[3, 5]`. -/
theorem mode_selection_spec :
    (∀ (n Nk : ℕ) (growth speed : Fin (n + 1) → Fin Nk → ℝ) (j : Fin Nk),
      (∀ i, growth i j ≤ growth (max_idx growth j) j) ∧
      (∀ i, (∀ i2, growth i2 j ≤ growth i j) → max_idx growth j ≤ i) ∧
      max_speed growth speed j = speed (max_idx growth j) j) ∧
    max_idx growthEx 0 = 1 ∧ max_idx growthEx 1 = 0 ∧
    max_growth growthEx 0 = 3 ∧ max_growth growthEx 1 = 5 ∧
    max_speed growthEx speedEx 0 = 30 ∧ max_speed growthEx speedEx 1 = 20 := by
  have hgen : ∀ (n Nk : ℕ) (growth speed : Fin (n + 1) → Fin Nk → ℝ) (j : Fin Nk),
      (∀ i, growth i j ≤ growth (max_idx growth j) j) ∧
      (∀ i, (∀ i2, growth i2 j ≤ growth i j) → max_idx growth j ≤ i) ∧
      max_speed growth speed j = speed (max_idx growth j) j := by
    intro n Nk growth speed j
    have h := np_argmax_spec fun i => growth i j
    exact ⟨h.1, h.2, rfl⟩
  have hidx0 : max_idx growthEx 0 = 1 := by
    apply np_argmax_eq
    · intro i2
      fin_cases i2 <;> norm_num [growthEx]
    · intro i2 hi2
      fin_cases i2
      · norm_num [growthEx]
      · exact absurd hi2 (by decide)
  have hidx1 : max_idx growthEx 1 = 0 := by
    apply np_argmax_eq
    · intro i2
      fin_cases i2 <;> norm_num [growthEx]
    · intro i2 hi2
      exact absurd hi2 (Fin.not_lt_zero i2)
  refine ⟨hgen, hidx0, hidx1, ?_, ?_, ?_, ?_⟩
  · rw [max_growth, take_along_axis0, hidx0]
    norm_num [growthEx]
  · rw [max_growth, take_along_axis0, hidx1]
    norm_num [growthEx]
  · rw [max_speed, take_along_axis0, hidx0]
    norm_num [speedEx]
  · rw [max_speed, take_along_axis0, hidx1]
    norm_num [speedEx]

/-- Concrete instance of the general part of `mode_selection_spec`. -/
theorem mode_selection_spec_witness :
    growthEx 0 0 ≤ growthEx (max_idx growthEx 0) 0 ∧ max_idx growthEx 0 ≤ 1 :=
  ⟨(mode_selection_spec.1 1 2 growthEx speedEx 0).1 0,
    (mode_selection_spec.1 1 2 growthEx speedEx 0).2.1 1 fun i2 => by
      fin_cases i2 <;> norm_num [growthEx]⟩

/-- C9: the pipeline's wavenumber selection returns an index
minimizing the absolute distance between the axis entry and the
target, ties broken by the lowest index (first occurrence). -/
theorem wavenumber_select_spec {n : ℕ} (wnum : Fin (n + 1) → ℝ) (target_k : ℝ) :
    (∀ i, |wnum (wavenumber_select wnum target_k) - target_k| ≤ |wnum i - target_k|) ∧
    ∀ i, (∀ i2, |wnum i - target_k| ≤ |wnum i2 - target_k|) →
      wavenumber_select wnum target_k ≤ i := by
  have h := np_argmin_spec fun i => |target_k - wnum i|
  rw [wavenumber_select]
  constructor
  · intro i
    have hi := h.1 i
    rwa [abs_sub_comm target_k (wnum (np_argmin fun i2 => |target_k - wnum i2|)),
      abs_sub_comm target_k (wnum i)] at hi
  · intro i hi
    apply h.2
    intro i2
    rw [abs_sub_comm target_k (wnum i), abs_sub_comm target_k (wnum i2)]
    exact hi i2

/-- Concrete instance of `wavenumber_select_spec` on the axis `[1, 3]`
with target `2` (a tie: both entries are at distance 1; the selected
index is the lowest, so it is `≤ 0`). -/
theorem wavenumber_select_spec_witness :
    |wnumEx (wavenumber_select wnumEx 2) - 2| ≤ |wnumEx 1 - 2| ∧
      wavenumber_select wnumEx 2 ≤ 0 :=
  ⟨(wavenumber_select_spec wnumEx 2).1 1,
    (wavenumber_select_spec wnumEx 2).2 0 fun i2 => by
      fin_cases i2 <;> norm_num [wnumEx]⟩

end Kuang2008
